import Mathlib

/-!
Verification of the Claude Code command/permission subsystem of the `demon`
repository against its natural-language specification.

Texts are modelled as `List Char` (`Str`), mirroring JavaScript strings as
character sequences.  Each definition is a shallow embedding of the
correspondingly named function of the source (files
`src/claude-code/executor.ts`, `src/claude-code/parser.ts` (permission
manager and command parser) and `src/mcp/client.ts` (project manager)).
-/

namespace Demon

/-- Strings of the embedded program, modelled as character lists. -/
abbrev Str := List Char

/-- Coerce a Lean string literal to the embedded string type. -/
def str (s : String) : Str := s.data

/-! ### Chunked response sender (`executor.ts`, `sendChunkedResponse`) -/

/-- Transport budget, `const MAX_CHUNK_SIZE = 4000` in `sendChunkedResponse`. -/
def MAX_CHUNK_SIZE : Nat := 4000

/-- Index of the last occurrence of `c` in `l` (JavaScript
`lastIndexOf` without a `fromIndex` restriction). -/
def lastIdxOf (c : Char) : Str → Option Nat
  | [] => none
  | x :: xs =>
    match lastIdxOf c xs with
    | some j => some (j + 1)
    | none => if x == c then some 0 else none

/-- JavaScript `remaining.lastIndexOf("\n", fromIdx)`: the largest index
`i ≤ fromIdx` holding a newline, `none` when there is none. -/
def lastNewlineIdx (l : Str) (fromIdx : Nat) : Option Nat :=
  lastIdxOf '\n' (l.take (fromIdx + 1))

/-- The split index chosen by one iteration of the splitting loop of
`sendChunkedResponse`: the last newline at or before the budget, replaced by
the budget itself when absent (`-1`) or before the halfway point. -/
def splitIdx (l : Str) : Nat :=
  match lastNewlineIdx l MAX_CHUNK_SIZE with
  | none => MAX_CHUNK_SIZE
  | some i => if i < MAX_CHUNK_SIZE / 2 then MAX_CHUNK_SIZE else i

/-- The splitting loop of `sendChunkedResponse` (lines 242-259 of
`executor.ts`): while the remainder exceeds the budget, push
`remaining.slice(0, splitIndex)` and continue with
`remaining.slice(splitIndex + 1)`. -/
def splitChunks (l : Str) : List Str :=
  if l.length = 0 then []
  else if l.length ≤ MAX_CHUNK_SIZE then [l]
  else l.take (splitIdx l) :: splitChunks (l.drop (splitIdx l + 1))
termination_by l.length
decreasing_by
  simp only [List.length_drop]
  omega

/-- A `claude-code:response` event as published by the executor.  The
`isPartial` field is `none` where the source leaves it out (the single-event
fast path) and `some b` where it is set. -/
structure ResponseEvent where
  requestId : String
  chatId : String
  text : Str
  sessionId : Option String
  isPartial : Option Bool
deriving DecidableEq, Repr

/-- The `"[Part i/N]\n\n"` indicator prepended to chunk `i` (0-based) of `n`;
empty when there is a single chunk (`chunks.length > 1 ? ... : ""`). -/
def partIndicator (i n : Nat) : Str :=
  if 1 < n then
    str "[Part " ++ (Nat.repr (i + 1)).data ++ str "/" ++ (Nat.repr n).data ++ str "]\n\n"
  else []

/-- `sendChunkedResponse` (`executor.ts` lines 224-275), returning the list of
published `claude-code:response` events in publication order. -/
def sendChunkedResponse (rid cid : String) (text : Str) (sid : Option String) :
    List ResponseEvent :=
  if text.length ≤ MAX_CHUNK_SIZE then
    [{ requestId := rid, chatId := cid, text := text, sessionId := sid, isPartial := none }]
  else
    let chunks := splitChunks text
    (List.range chunks.length).map fun i =>
      let isLast := i == chunks.length - 1
      { requestId := rid, chatId := cid,
        text := partIndicator i chunks.length ++ chunks.getD i [],
        sessionId := if isLast then sid else none,
        isPartial := some (!isLast) }

/-! ### Chunking lemmas -/

theorem splitChunks_nil : splitChunks [] = [] := by
  rw [splitChunks]
  simp

theorem splitChunks_short {l : Str} (h0 : l.length ≠ 0) (h : l.length ≤ MAX_CHUNK_SIZE) :
    splitChunks l = [l] := by
  rw [splitChunks]
  simp [h0, h]

theorem splitChunks_long {l : Str} (h : MAX_CHUNK_SIZE < l.length) :
    splitChunks l = l.take (splitIdx l) :: splitChunks (l.drop (splitIdx l + 1)) := by
  rw [splitChunks]
  rw [if_neg (by omega), if_neg (by omega)]

theorem lastIdxOf_lt {c : Char} : ∀ {l : Str} {j : Nat}, lastIdxOf c l = some j → j < l.length := by
  intro l
  induction l with
  | nil => intro j h; simp [lastIdxOf] at h
  | cons x xs ih =>
    intro j h
    rw [lastIdxOf] at h
    cases hrec : lastIdxOf c xs with
    | some k =>
      rw [hrec] at h
      simp only [Option.some.injEq] at h
      have := ih hrec
      simp [← h]
      omega
    | none =>
      rw [hrec] at h
      by_cases hx : x == c
      · simp [hx] at h
        simp [← h]
      · simp [hx] at h

theorem splitIdx_le (l : Str) : splitIdx l ≤ MAX_CHUNK_SIZE := by
  rw [splitIdx]
  cases h : lastNewlineIdx l MAX_CHUNK_SIZE with
  | none => simp
  | some i =>
    simp only
    split
    · exact Nat.le_refl _
    · have := lastIdxOf_lt h
      have hlen : (l.take (MAX_CHUNK_SIZE + 1)).length ≤ MAX_CHUNK_SIZE + 1 := by
        simp [List.length_take]
      omega

theorem splitIdx_ge (l : Str) : MAX_CHUNK_SIZE / 2 ≤ splitIdx l := by
  rw [splitIdx]
  cases h : lastNewlineIdx l MAX_CHUNK_SIZE with
  | none => simp [MAX_CHUNK_SIZE]
  | some i =>
    simp only
    split
    · simp [MAX_CHUNK_SIZE]
    · omega

/-- Shape invariant for the chunks: each produced chunk is nonempty and at
most `MAX_CHUNK_SIZE` characters long. -/
theorem splitChunks_shape : ∀ (n : Nat) (l : Str), l.length ≤ n →
    ∀ c ∈ splitChunks l, c ≠ [] ∧ c.length ≤ MAX_CHUNK_SIZE := by
  intro n
  induction n with
  | zero =>
    intro l hl c hc
    have : l = [] := List.eq_nil_of_length_eq_zero (by omega)
    rw [this, splitChunks_nil] at hc
    simp at hc
  | succ n ih =>
    intro l hl c hc
    by_cases h0 : l.length = 0
    · rw [List.eq_nil_of_length_eq_zero h0, splitChunks_nil] at hc
      simp at hc
    by_cases hshort : l.length ≤ MAX_CHUNK_SIZE
    · rw [splitChunks_short h0 hshort] at hc
      simp at hc
      subst hc
      exact ⟨fun hnil => h0 (by simp [hnil]), hshort⟩
    · rw [splitChunks_long (by omega)] at hc
      rcases List.mem_cons.mp hc with hc | hc
      · subst hc
        constructor
        · have h2000 := splitIdx_ge l
          have hhalf : (0:Nat) < MAX_CHUNK_SIZE / 2 := by norm_num [MAX_CHUNK_SIZE]
          intro hnil
          have hlen := congrArg List.length hnil
          rw [List.length_take] at hlen
          simp only [List.length_nil] at hlen
          omega
        · simp [List.length_take]
          left
          exact splitIdx_le l
      · refine ih (l.drop (splitIdx l + 1)) ?_ c hc
        simp [List.length_drop]
        omega

/-- Reassemble chunks, re-inserting one separator block after each chunk. -/
def interleave : List Str → List Str → Str
  | [], _ => []
  | c :: cs, [] => c ++ interleave cs []
  | c :: cs, d :: ds => c ++ d ++ interleave cs ds

/-- The splitting loop drops exactly one character per iteration of its long
branch: the chunks it produces, interleaved with at-most-one-character
separators (the character standing at each split index), rebuild the input. -/
theorem splitChunks_reconstruct : ∀ (n : Nat) (l : Str), l.length ≤ n →
    ∃ seps : List Str, seps.length = (splitChunks l).length ∧
      (∀ d ∈ seps, d.length ≤ 1) ∧ interleave (splitChunks l) seps = l := by
  intro n
  induction n with
  | zero =>
    intro l hl
    have : l = [] := List.eq_nil_of_length_eq_zero (by omega)
    subst this
    exact ⟨[], by simp [splitChunks_nil], by simp, by simp [splitChunks_nil, interleave]⟩
  | succ n ih =>
    intro l hl
    by_cases h0 : l.length = 0
    · have : l = [] := List.eq_nil_of_length_eq_zero h0
      subst this
      exact ⟨[], by simp [splitChunks_nil], by simp, by simp [splitChunks_nil, interleave]⟩
    by_cases hshort : l.length ≤ MAX_CHUNK_SIZE
    · refine ⟨[[]], by simp [splitChunks_short h0 hshort], by simp, ?_⟩
      simp [splitChunks_short h0 hshort, interleave]
    · have hlt : splitIdx l < l.length := by
        have := splitIdx_le l
        omega
      obtain ⟨seps, hlen, hsmall, hjoin⟩ :=
        ih (l.drop (splitIdx l + 1)) (by simp [List.length_drop]; omega)
      refine ⟨[l[splitIdx l]] :: seps, ?_, ?_, ?_⟩
      · simp [splitChunks_long (by omega : MAX_CHUNK_SIZE < l.length), hlen]
      · intro d hd
        rcases List.mem_cons.mp hd with hd | hd
        · simp [hd]
        · exact hsmall d (by simpa using hd)
      · rw [splitChunks_long (by omega : MAX_CHUNK_SIZE < l.length)]
        rw [interleave, hjoin]
        rw [List.append_assoc]
        simp only [List.singleton_append]
        rw [List.getElem_cons_drop l (splitIdx l) hlt]
        exact List.take_append_drop _ _

/-! ### Evaluating the splitter on newline-free texts of known length -/

theorem lastIdxOf_replicate {a c : Char} (h : ¬a = c) (n : Nat) :
    lastIdxOf c (List.replicate n a) = none := by
  induction n with
  | zero => simp [lastIdxOf]
  | succ n ih =>
    rw [List.replicate_succ, lastIdxOf, ih]
    simp [h]

theorem splitIdx_replicate_a (n : Nat) : splitIdx (List.replicate n 'a') = MAX_CHUNK_SIZE := by
  rw [splitIdx, lastNewlineIdx, List.take_replicate, lastIdxOf_replicate (by decide)]

theorem splitChunks_rep4001 :
    splitChunks (List.replicate 4001 'a') = [List.replicate 4000 'a'] := by
  rw [splitChunks_long (by rw [List.length_replicate]; norm_num [MAX_CHUNK_SIZE]),
    splitIdx_replicate_a]
  rw [List.take_replicate, List.drop_replicate]
  norm_num [MAX_CHUNK_SIZE, splitChunks_nil]

theorem splitChunks_rep4002 :
    splitChunks (List.replicate 4002 'a') = [List.replicate 4000 'a', ['a']] := by
  rw [splitChunks_long (by rw [List.length_replicate]; norm_num [MAX_CHUNK_SIZE]),
    splitIdx_replicate_a]
  rw [List.take_replicate, List.drop_replicate]
  norm_num [MAX_CHUNK_SIZE]
  rw [splitChunks_short (by norm_num) (by norm_num [MAX_CHUNK_SIZE])]

/-- Boolean shape check for one chunk: nonempty and within the budget. -/
def chunkOk (c : Str) : Bool :=
  decide (0 < c.length) && decide (c.length ≤ MAX_CHUNK_SIZE)

/-- C9: for every input text longer than 4000 characters, the splitting loop
of `sendChunkedResponse` terminates (the embedded `splitChunks` is total by
construction, with the remainder strictly shrinking each iteration) and every
chunk it produces is nonempty and at most 4000 characters long before the
part prefix is prepended. -/
theorem chunks_nonempty_and_bounded (text : Str) (h : MAX_CHUNK_SIZE < text.length) :
    (splitChunks text).all chunkOk = true := by
  rw [List.all_eq_true]
  intro c hc
  obtain ⟨h1, h2⟩ := splitChunks_shape text.length text (Nat.le_refl _) c hc
  simp only [chunkOk, Bool.and_eq_true, decide_eq_true_eq]
  exact ⟨List.length_pos.mpr h1, h2⟩

theorem chunks_nonempty_and_bounded_witness :
    (splitChunks (List.replicate 4001 'a')).all chunkOk = true :=
  chunks_nonempty_and_bounded _ (by rw [List.length_replicate]; norm_num [MAX_CHUNK_SIZE])

/-- The texts of the events published for an over-budget input are the part
indicators prepended to the chunks of `splitChunks`. -/
theorem sendChunked_texts (rid cid : String) (sid : Option String) (text : Str)
    (h : MAX_CHUNK_SIZE < text.length) :
    (sendChunkedResponse rid cid text sid).map ResponseEvent.text =
      (List.range (splitChunks text).length).map
        (fun i => partIndicator i (splitChunks text).length ++ (splitChunks text).getD i []) := by
  rw [sendChunkedResponse, if_neg (by omega)]
  simp [List.map_map]

/-- C1 (amended): a text within the 4000-character budget is published as
exactly one response event carrying the text unchanged, with no part prefix;
an over-budget text is published as events whose texts are the part
indicators prepended to the chunks of `splitChunks`, and those chunks
interleaved with the at-most-one-character separators dropped at each split
boundary rebuild the original text (plain concatenation of the stripped
texts loses exactly the dropped characters). -/
theorem chunking_events_spec (rid cid : String) (sid : Option String) (text : Str) :
    (text.length ≤ MAX_CHUNK_SIZE →
      sendChunkedResponse rid cid text sid =
        [{ requestId := rid, chatId := cid, text := text, sessionId := sid,
           isPartial := none }])
    ∧ (MAX_CHUNK_SIZE < text.length →
        (sendChunkedResponse rid cid text sid).map ResponseEvent.text =
          (List.range (splitChunks text).length).map
            (fun i => partIndicator i (splitChunks text).length ++ (splitChunks text).getD i [])
        ∧ ∃ seps : List Str, seps.length = (splitChunks text).length ∧
            (∀ d ∈ seps, d.length ≤ 1) ∧ interleave (splitChunks text) seps = text) := by
  constructor
  · intro h
    rw [sendChunkedResponse, if_pos h]
  · intro h
    exact ⟨sendChunked_texts rid cid sid text h,
      splitChunks_reconstruct text.length text (Nat.le_refl _)⟩

theorem chunking_events_spec_witness :
    sendChunkedResponse "r" "c" (str "hi") (some "s") =
      [{ requestId := "r", chatId := "c", text := str "hi", sessionId := some "s",
         isPartial := none }] :=
  (chunking_events_spec "r" "c" (some "s") (str "hi")).1 (by decide)

/-- C1 counterexample: for the 4001-character newline-free text `"aa…a"`,
`sendChunkedResponse` publishes a single prefix-free event holding only the
first 4000 characters (the splitting loop drops the character at the split
index), so concatenating the event texts, prefixes stripped, does not
reproduce the original text. -/
theorem chunking_roundtrip_cex :
    ((sendChunkedResponse "r" "c" (List.replicate 4001 'a') (some "s")).map
        ResponseEvent.text).flatten ≠ List.replicate 4001 'a' := by
  intro hcontra
  rw [sendChunked_texts "r" "c" (some "s") (List.replicate 4001 'a')
      (by rw [List.length_replicate]; norm_num [MAX_CHUNK_SIZE]),
    splitChunks_rep4001] at hcontra
  generalize hx : List.replicate 4000 'a' = x at hcontra
  have hcomp : ((List.range ([x] : List Str).length).map
      (fun i => partIndicator i ([x] : List Str).length ++ ([x] : List Str).getD i [])).flatten
      = x := by
    simp only [show ([x] : List Str).length = 1 from rfl]
    rw [show List.range 1 = [0] from rfl]
    simp only [List.map_cons, List.map_nil, List.flatten_cons, List.flatten_nil,
      List.append_nil]
    rfl
  rw [hcomp, ← hx] at hcontra
  have hlen := congrArg List.length hcontra
  rw [List.length_replicate, List.length_replicate] at hlen
  norm_num at hlen

/-- Boolean check of the multi-part event contract: each event text begins
with its `"[Part i/N]"` indicator, only the final event carries the session
id, and the earlier events are marked partial with no session id. -/
def partEventsOk (evs : List ResponseEvent) (sid : Option String) : Bool :=
  (List.range evs.length).all fun i =>
    match evs[i]? with
    | none => false
    | some e =>
      (partIndicator i evs.length).isPrefixOf e.text &&
      (if i == evs.length - 1 then e.sessionId == sid && e.isPartial == some false
       else e.sessionId == none && e.isPartial == some true)

/-- C7: whenever `sendChunkedResponse` splits a text into more than one
chunk, every published event text begins with its part indicator, only the
final event carries the session id, and every earlier event is marked
partial with no session id. -/
theorem multipart_events_ok (rid cid : String) (sid : Option String) (text : Str)
    (h : MAX_CHUNK_SIZE < text.length) (hN : 1 < (splitChunks text).length) :
    partEventsOk (sendChunkedResponse rid cid text sid) sid = true := by
  rw [sendChunkedResponse, if_neg (by omega)]
  simp only
  rw [partEventsOk]
  rw [List.all_eq_true]
  intro i hi
  rw [List.length_map, List.length_range] at hi
  have hilt : i < (splitChunks text).length := List.mem_range.mp hi
  rw [List.length_map, List.length_range, List.getElem?_map, List.getElem?_range hilt]
  simp only [Option.map_some']
  rw [Bool.and_eq_true]
  refine ⟨List.isPrefixOf_iff_prefix.mpr (List.prefix_append _ _), ?_⟩
  cases hb : (i == (splitChunks text).length - 1) with
  | true => simp
  | false => simp

theorem multipart_events_ok_witness :
    partEventsOk (sendChunkedResponse "r" "c" (List.replicate 4002 'a') (some "s"))
      (some "s") = true :=
  multipart_events_ok "r" "c" (some "s") _
    (by rw [List.length_replicate]; norm_num [MAX_CHUNK_SIZE])
    (by rw [splitChunks_rep4002]; norm_num)

/-! ### Permission store (`parser.ts`, `PermissionManager`)

Tool inputs are modelled by their two fields the permission code inspects;
`none` models an absent field. JavaScript truthiness of an optional string
field (`undefined` and `""` are falsy) is `strTruthy`. The glob matcher
(`minimatch`) and the regular-expression test are external collaborators and
are passed in as oracle functions. -/

/-- A stored permission rule (`PermissionRule` in `types.ts`). -/
structure PermissionRule where
  tool : Str
  pattern : Option Str := none
  command : Option Str := none
  commandPattern : Option Str := none
deriving DecidableEq, Repr

/-- Per-project allowed/denied rule lists (`ProjectPermissions`). -/
structure ProjectPermissions where
  allowed : List PermissionRule
  denied : List PermissionRule
deriving DecidableEq, Repr

/-- The persisted permission memory: project name to rule lists
(`PermissionMemory`), as an insertion-ordered association list. -/
abbrev PermissionMemory := List (Str × ProjectPermissions)

/-- The fields of a tool input inspected by the permission code. -/
structure ToolInput where
  file_path : Option Str := none
  command : Option Str := none
deriving DecidableEq, Repr

/-- JavaScript truthiness of an optional string value: `undefined` and the
empty string are falsy. -/
def strTruthy : Option Str → Bool
  | none => false
  | some s => !(s == [])

/-- `matchesRule` (`parser.ts` lines 169-194).  `glob` stands for
`minimatch(path, pattern)` and `rtest` for `new RegExp(pat).test(cmd)`. -/
def matchesRule (glob rtest : Str → Str → Bool) (rule : PermissionRule)
    (toolName : Str) (input : ToolInput) : Bool :=
  if !(rule.tool == toolName) then false
  else if strTruthy rule.pattern && input.file_path.isSome then
    glob (input.file_path.getD []) (rule.pattern.getD [])
  else
    let bashHit :=
      if toolName == str "Bash" && strTruthy input.command then
        (strTruthy rule.command && (input.command.getD [] == rule.command.getD [])) ||
        (strTruthy rule.commandPattern && rtest (rule.commandPattern.getD []) (input.command.getD []))
      else false
    if bashHit then true
    else if !strTruthy rule.pattern && !strTruthy rule.command &&
        !strTruthy rule.commandPattern then true
    else false

/-- The three-valued permission decision. -/
inductive PermDecision
  | allowed
  | denied
  | ask
deriving DecidableEq, Repr

/-- `checkPermission` (`parser.ts` lines 144-167): denied rules are scanned
first, then allowed rules, and `ask` is returned when neither list matches or
the project has no stored rules. -/
def checkPermission (glob rtest : Str → Str → Bool) (memory : PermissionMemory)
    (projectName toolName : Str) (input : ToolInput) : PermDecision :=
  match memory.lookup projectName with
  | none => .ask
  | some permissions =>
    if permissions.denied.any (fun r => matchesRule glob rtest r toolName input) then .denied
    else if permissions.allowed.any (fun r => matchesRule glob rtest r toolName input) then
      .allowed
    else .ask

/-- Split a character list at every occurrence of `sep` (JavaScript
`String.prototype.split` with a one-character separator; the result is never
empty and the empty string splits to `[""]`). -/
def splitOnChar (sep : Char) : Str → List Str
  | [] => [[]]
  | c :: rest =>
    let r := splitOnChar sep rest
    if c == sep then [] :: r
    else
      match r with
      | [] => [[c]]
      | h :: t => (c :: h) :: t

/-- Join character lists with `sep` between them (JavaScript
`Array.prototype.join` with a one-character separator). -/
def joinChar (sep : Char) : List Str → Str
  | [] => []
  | [x] => x
  | x :: y :: t => x ++ sep :: joinChar sep (y :: t)

/-- The pattern `createRule` derives from a file path (`parser.ts` lines
227-237): split on `/`, pop the final segment, take the part after its last
`.` as the extension (empty when there is no dot), and build the
directory+extension glob when the extension is truthy, the exact path
otherwise. -/
def createRulePattern (path : Str) : Str :=
  let parts := splitOnChar '/' path
  let file := parts.getLastD []
  let dirParts := parts.dropLast
  let ext := if file.contains '.' then (splitOnChar '.' file).getLastD [] else []
  if !(ext == []) then joinChar '/' dirParts ++ str "/**/*." ++ ext
  else path

/-- `createRule` (`parser.ts` lines 223-245): a file-path input yields the
pattern of `createRulePattern`; a Bash input with a truthy command stores the
exact command. -/
def createRule (toolName : Str) (input : ToolInput) : PermissionRule :=
  let base : PermissionRule := { tool := toolName }
  let withPattern :=
    match input.file_path with
    | none => base
    | some path => { base with pattern := some (createRulePattern path) }
  if toolName == str "Bash" && strTruthy input.command then
    { withPattern with command := some (input.command.getD []) }
  else withPattern

/-- The duplicate test used by `remember`: same tool + pattern + command. -/
def sameTuple (r rule : PermissionRule) : Bool :=
  r.tool == rule.tool && r.pattern == rule.pattern && r.command == rule.command

/-- `ensureProject` (`parser.ts` lines 138-142): create an empty rule set for
a project not yet present (JavaScript object insertion appends the key). -/
def ensureProject (m : PermissionMemory) (projectName : Str) : PermissionMemory :=
  if (m.lookup projectName).isSome then m
  else m ++ [(projectName, { allowed := [], denied := [] })]

/-- Apply `f` to the rule sets stored under `projectName`. -/
def updateProject (m : PermissionMemory) (projectName : Str)
    (f : ProjectPermissions → ProjectPermissions) : PermissionMemory :=
  m.map fun kv => if kv.1 == projectName then (kv.1, f kv.2) else kv

/-- The per-project update performed by `remember`: append the rule to the
chosen list unless a rule with the same tool + pattern + command tuple is
already present (the duplicate check of `parser.ts` lines 209-220). -/
def rememberBody (rule : PermissionRule) (allowed : Bool) (perms : ProjectPermissions) :
    ProjectPermissions :=
  let list := if allowed then perms.allowed else perms.denied
  if list.any (fun r => sameTuple r rule) then perms
  else if allowed then { perms with allowed := perms.allowed ++ [rule] }
  else { perms with denied := perms.denied ++ [rule] }

/-- `remember` (`parser.ts` lines 196-221): ensure the project entry, build
the rule with `createRule`, and update the project's rule lists with
`rememberBody`. -/
def remember (m : PermissionMemory) (projectName toolName : Str) (input : ToolInput)
    (allowed : Bool) : PermissionMemory :=
  updateProject (ensureProject m projectName) projectName
    (rememberBody (createRule toolName input) allowed)

/-! ### Project registry (`client.ts`, `ProjectManager`) -/

/-- The persisted registry record (`ClaudeCodeConfig` in `types.ts`). -/
structure ClaudeCodeConfig where
  allowedUserId : Str
  projects : List (Str × Str)
deriving DecidableEq, Repr

/-- `loadConfig` (`client.ts` lines 157-168): a missing backing store is
replaced by the default record with an empty authorized-user id and no
projects; an existing store is returned as parsed. -/
def loadConfig (stored : Option ClaudeCodeConfig) : ClaudeCodeConfig :=
  match stored with
  | none => { allowedUserId := [], projects := [] }
  | some c => c

/-- `isAuthorizedUser` (`client.ts` lines 181-183): exact string equality
with the single stored authorized id. -/
def isAuthorizedUser (config : ClaudeCodeConfig) (userId : Str) : Bool :=
  config.allowedUserId == userId

/-! ### Claim C2: checkPermission decision procedure -/

/-- C2: for every project, tool and input, `checkPermission` returns
`denied` exactly when some denied rule matches, otherwise `allowed` exactly
when some allowed rule matches, otherwise `ask` (and `ask` whenever the
project has no stored rules); a matching rule always names the invoked tool;
a rule with none of pattern/command/commandPattern matches exactly the
invocations of its tool; a rule carrying a (truthy) pattern is decided by the
glob oracle on the input's `file_path`; and for the Bash tool with a (truthy)
command a rule carrying a command or command pattern is decided by exact
string equality or the regex oracle on that command. -/
theorem checkPermission_spec (glob rtest : Str → Str → Bool) (m : PermissionMemory)
    (p t : Str) (input : ToolInput) :
    (m.lookup p = none → checkPermission glob rtest m p t input = .ask)
    ∧ (∀ perms, m.lookup p = some perms →
        ((checkPermission glob rtest m p t input = .denied ↔
            ∃ r ∈ perms.denied, matchesRule glob rtest r t input = true)
          ∧ (checkPermission glob rtest m p t input = .allowed ↔
              ((∀ r ∈ perms.denied, matchesRule glob rtest r t input = false)
                ∧ ∃ r ∈ perms.allowed, matchesRule glob rtest r t input = true))
          ∧ (checkPermission glob rtest m p t input = .ask ↔
              ((∀ r ∈ perms.denied, matchesRule glob rtest r t input = false)
                ∧ ∀ r ∈ perms.allowed, matchesRule glob rtest r t input = false))))
    ∧ (∀ r : PermissionRule, matchesRule glob rtest r t input = true → r.tool = t)
    ∧ (∀ r : PermissionRule, strTruthy r.pattern = false → strTruthy r.command = false →
        strTruthy r.commandPattern = false →
        matchesRule glob rtest r t input = (r.tool == t))
    ∧ (∀ (r : PermissionRule) (pat fp : Str), r.pattern = some pat → pat ≠ [] →
        input.file_path = some fp →
        matchesRule glob rtest r t input = (r.tool == t && glob fp pat))
    ∧ (∀ (r : PermissionRule) (c : Str), t = str "Bash" → input.command = some c →
        c ≠ [] → (strTruthy r.pattern = false ∨ input.file_path = none) →
        (strTruthy r.command = true ∨ strTruthy r.commandPattern = true) →
        matchesRule glob rtest r t input =
          (r.tool == t &&
            ((strTruthy r.command && (c == r.command.getD [])) ||
             (strTruthy r.commandPattern && rtest (r.commandPattern.getD []) c)))) := by
  refine ⟨?_, ?_, ?_, ?_, ?_, ?_⟩
  · intro h
    rw [checkPermission, h]
  · intro perms h
    rw [checkPermission, h]
    by_cases hd : perms.denied.any (fun r => matchesRule glob rtest r t input) = true
    · simp only [hd, if_true]
      rw [List.any_eq_true] at hd
      obtain ⟨r, hr, hm⟩ := hd
      refine ⟨⟨fun _ => ⟨r, hr, hm⟩, fun _ => trivial⟩, ?_, ?_⟩
      · constructor
        · intro hfalse; cases hfalse
        · rintro ⟨hall, -⟩
          exact absurd (hall r hr) (by simp [hm])
      · constructor
        · intro hfalse; cases hfalse
        · rintro ⟨hall, -⟩
          exact absurd (hall r hr) (by simp [hm])
    · have hd' : perms.denied.any (fun r => matchesRule glob rtest r t input) = false :=
        Bool.eq_false_iff.mpr hd
      have hdall : ∀ r ∈ perms.denied, matchesRule glob rtest r t input = false := by
        intro r hr
        have := List.any_eq_false.mp hd' r hr
        simpa using this
      simp only [hd', Bool.false_eq_true, if_false]
      by_cases ha : perms.allowed.any (fun r => matchesRule glob rtest r t input) = true
      · simp only [ha, if_true]
        rw [List.any_eq_true] at ha
        obtain ⟨r, hr, hm⟩ := ha
        refine ⟨?_, ⟨fun _ => ⟨hdall, r, hr, hm⟩, fun _ => trivial⟩, ?_⟩
        · constructor
          · intro hfalse; cases hfalse
          · rintro ⟨r', hr', hm'⟩
            exact absurd (hdall r' hr') (by simp [hm'])
        · constructor
          · intro hfalse; cases hfalse
          · rintro ⟨-, hall⟩
            exact absurd (hall r hr) (by simp [hm])
      · have ha' : perms.allowed.any (fun r => matchesRule glob rtest r t input) = false :=
          Bool.eq_false_iff.mpr ha
        have haall : ∀ r ∈ perms.allowed, matchesRule glob rtest r t input = false := by
          intro r hr
          have := List.any_eq_false.mp ha' r hr
          simpa using this
        simp only [ha', Bool.false_eq_true, if_false]
        refine ⟨?_, ?_, ⟨fun _ => ⟨hdall, haall⟩, fun _ => trivial⟩⟩
        · constructor
          · intro hfalse; cases hfalse
          · rintro ⟨r', hr', hm'⟩
            exact absurd (hdall r' hr') (by simp [hm'])
        · constructor
          · intro hfalse; cases hfalse
          · rintro ⟨-, r', hr', hm'⟩
            exact absurd (haall r' hr') (by simp [hm'])
  · intro r hm
    by_cases ht : (r.tool == t) = true
    · exact eq_of_beq ht
    · rw [matchesRule] at hm
      rw [Bool.eq_false_iff.mpr ht] at hm
      simp at hm
  · intro r h1 h2 h3
    cases ht : (r.tool == t) with
    | false => simp [matchesRule, ht]
    | true => simp [matchesRule, ht, h1, h2, h3]
  · intro r pat fp hp hpne hfp
    cases ht : (r.tool == t) with
    | false => simp [matchesRule, ht]
    | true => simp [matchesRule, ht, hp, hfp, strTruthy, hpne]
  · intro r c htb hcmd hcne hguard hcc
    subst htb
    cases ht : (r.tool == str "Bash") with
    | false => simp [matchesRule, ht]
    | true =>
      have hg : (strTruthy r.pattern && input.file_path.isSome) = false := by
        rcases hguard with h | h
        · simp [h]
        · simp [h]
      have hbl : (!strTruthy r.pattern && !strTruthy r.command &&
          !strTruthy r.commandPattern) = false := by
        rcases hcc with h | h <;> simp [h]
      have hstc : strTruthy (some c) = true := by simp [strTruthy, hcne]
      by_cases hE : ((strTruthy r.command && (c == r.command.getD [])) ||
          (strTruthy r.commandPattern && rtest (r.commandPattern.getD []) c)) = true
      · simp [matchesRule, ht, hcmd, hstc, hg, hE]
      · have hE' := Bool.eq_false_iff.mpr hE
        simp [matchesRule, ht, hcmd, hstc, hg, hbl, hE']

/-- Concrete store used to witness the permission claims. -/
def exMemory : PermissionMemory :=
  [(str "proj", { allowed := [{ tool := str "Edit" }], denied := [{ tool := str "Bash" }] })]

theorem checkPermission_spec_witness :
    checkPermission (fun _ _ => false) (fun _ _ => false) exMemory (str "proj") (str "Edit")
      { file_path := some (str "/a/b.ts"), command := none } = .allowed := by
  refine (((checkPermission_spec (fun _ _ => false) (fun _ _ => false) exMemory
      (str "proj") (str "Edit")
      { file_path := some (str "/a/b.ts"), command := none }).2.1
      { allowed := [{ tool := str "Edit" }], denied := [{ tool := str "Bash" }] }
      (by decide)).2.1).mpr ?_
  exact ⟨by decide, ⟨{ tool := str "Edit" }, by decide, by decide⟩⟩

/-! ### Claim C3: default registry state -/

/-- C3 counterexample: with the backing store absent, the initialized config
has the empty authorized id, and the exact-string-match authorization check
accepts the empty user id, so it is not the case that every user id is
rejected in that state. -/
theorem default_config_authorizes_empty_id :
    (loadConfig none).allowedUserId = [] ∧ (loadConfig none).projects = [] ∧
      isAuthorizedUser (loadConfig none) [] = true :=
  ⟨rfl, rfl, rfl⟩

/-- C3 (amended): a missing backing store initializes the registry with an
empty authorized-user id and no projects, and every nonempty user id is then
unauthorized; the empty user id, however, is accepted by the exact string
comparison. -/
theorem default_config_fails_safe :
    (loadConfig none).allowedUserId = [] ∧ (loadConfig none).projects = [] ∧
      ∀ userId : Str, userId ≠ [] → isAuthorizedUser (loadConfig none) userId = false := by
  refine ⟨rfl, rfl, ?_⟩
  intro u hu
  simp only [isAuthorizedUser, loadConfig]
  rw [beq_eq_false_iff_ne]
  exact fun h => hu h.symm

theorem default_config_fails_safe_witness :
    isAuthorizedUser (loadConfig none) (str "42") = false :=
  default_config_fails_safe.2.2 (str "42") (by decide)

/-! ### Claim C5: shape of remembered rules

The spec-side path functions below are stated directly as substring
operations (via `reverse`/`takeWhile`/`take`), independently of the
split/pop/join pipeline used by `createRule`, and are then proven to agree
with it. -/

/-- The substring of `s` after the last occurrence of `sep` (all of `s` when
`sep` does not occur). -/
def lastSegSpec (sep : Char) (s : Str) : Str :=
  (s.reverse.takeWhile (fun c => !(c == sep))).reverse

/-- The directory part of a path: everything before the last slash, empty
for a slash-free path. -/
def dirSpec (path : Str) : Str :=
  if path.contains '/' then path.take (path.length - (lastSegSpec '/' path).length - 1)
  else []

/-- The extension of a file name: the substring after the last dot, empty
when the name has no dot (a trailing dot yields the empty extension). -/
def extSpec (seg : Str) : Str :=
  if seg.contains '.' then lastSegSpec '.' seg else []

theorem splitOnChar_nil (sep : Char) : splitOnChar sep [] = [[]] := rfl

theorem splitOnChar_cons (sep c : Char) (rest : Str) :
    splitOnChar sep (c :: rest) =
      if c == sep then [] :: splitOnChar sep rest
      else
        match splitOnChar sep rest with
        | [] => [[c]]
        | h :: t => (c :: h) :: t := rfl

theorem joinChar_singleton (sep : Char) (x : Str) : joinChar sep [x] = x := rfl

theorem joinChar_cons_cons (sep : Char) (x y : Str) (t : List Str) :
    joinChar sep (x :: y :: t) = x ++ sep :: joinChar sep (y :: t) := rfl

theorem splitOnChar_ne_nil (sep : Char) (s : Str) : splitOnChar sep s ≠ [] := by
  cases s with
  | nil => simp [splitOnChar_nil]
  | cons c rest =>
    rw [splitOnChar_cons]
    split
    · simp
    · split <;> simp

theorem getLastD_irrel {α : Type} {l : List α} (h : l ≠ []) (d₁ d₂ : α) :
    l.getLastD d₁ = l.getLastD d₂ := by
  rw [List.getLastD_eq_getLast? d₁, List.getLastD_eq_getLast? d₂,
    List.getLast?_eq_getLast l h]
  rfl

theorem joinChar_splitOnChar (sep : Char) : ∀ s : Str, joinChar sep (splitOnChar sep s) = s := by
  intro s
  induction s with
  | nil => rfl
  | cons c rest ih =>
    rw [splitOnChar_cons]
    by_cases hc : (c == sep) = true
    · rw [if_pos hc]
      cases hsp : splitOnChar sep rest with
      | nil => exact absurd hsp (splitOnChar_ne_nil sep rest)
      | cons h t =>
        rw [hsp] at ih
        rw [joinChar_cons_cons, List.nil_append, ih, eq_of_beq hc]
    · rw [if_neg hc]
      cases hsp : splitOnChar sep rest with
      | nil => exact absurd hsp (splitOnChar_ne_nil sep rest)
      | cons h t =>
        rw [hsp] at ih
        simp only
        cases t with
        | nil =>
          rw [joinChar_singleton] at ih ⊢
          rw [ih]
        | cons k t' =>
          rw [joinChar_cons_cons] at ih ⊢
          rw [List.cons_append, ih]

theorem joinChar_append_singleton (sep : Char) :
    ∀ (xs : List Str) (y : Str), xs ≠ [] →
      joinChar sep (xs ++ [y]) = joinChar sep xs ++ sep :: y := by
  intro xs
  induction xs with
  | nil => intro y h; exact absurd rfl h
  | cons x xs ih =>
    intro y _
    cases xs with
    | nil => rfl
    | cons m xs' =>
      rw [show (x :: m :: xs') ++ [y] = x :: ((m :: xs') ++ [y]) from rfl]
      rw [show (m :: xs') ++ [y] = m :: (xs' ++ [y]) from rfl]
      rw [joinChar_cons_cons]
      rw [show (m : Str) :: (xs' ++ [y]) = (m :: xs') ++ [y] from rfl]
      rw [ih y (by simp), joinChar_cons_cons, List.append_assoc, List.cons_append]

theorem takeWhile_append_singleton_false {p : Char → Bool} {y : Char} (h : p y = false) :
    ∀ xs : Str, (xs ++ [y]).takeWhile p = xs.takeWhile p := by
  intro xs
  induction xs with
  | nil => simp [List.takeWhile_cons, h]
  | cons x xs ih =>
    by_cases hx : p x = true
    · simp [List.takeWhile_cons, hx, ih]
    · simp [List.takeWhile_cons, Bool.eq_false_iff.mpr hx]

theorem takeWhile_append_all {p : Char → Bool} :
    ∀ {xs : Str}, (∀ x ∈ xs, p x = true) →
      ∀ ys, (xs ++ ys).takeWhile p = xs ++ ys.takeWhile p := by
  intro xs
  induction xs with
  | nil => intro _ ys; simp
  | cons x xs ih =>
    intro hall ys
    have hx := hall x (List.mem_cons_self x xs)
    rw [List.cons_append, List.takeWhile_cons, hx,
      ih (fun z hz => hall z (List.mem_cons_of_mem x hz)) ys]
    simp

theorem takeWhile_append_of_exists_false {p : Char → Bool} :
    ∀ {xs : Str}, (∃ x ∈ xs, p x = false) →
      ∀ ys, (xs ++ ys).takeWhile p = xs.takeWhile p := by
  intro xs
  induction xs with
  | nil => rintro ⟨x, hx, -⟩; simp at hx
  | cons x xs ih =>
    rintro ⟨z, hz, hpz⟩ ys
    by_cases hx : p x = true
    · have hzxs : z ∈ xs := by
        rcases List.mem_cons.mp hz with h | h
        · subst h; rw [hx] at hpz; cases hpz
        · exact h
      rw [List.cons_append, List.takeWhile_cons, hx, List.takeWhile_cons, hx,
        ih ⟨z, hzxs, hpz⟩ ys]
    · rw [List.cons_append, List.takeWhile_cons, Bool.eq_false_iff.mpr hx,
        List.takeWhile_cons, Bool.eq_false_iff.mpr hx]
      rfl

theorem contains_eq_false_iff {a : Char} {l : Str} : l.contains a = false ↔ a ∉ l := by
  rw [Bool.eq_false_iff]
  exact not_congr List.elem_iff

theorem two_le_splitOnChar_of_contains (sep : Char) :
    ∀ {s : Str}, s.contains sep = true → 2 ≤ (splitOnChar sep s).length := by
  intro s
  induction s with
  | nil => intro h; cases h
  | cons c rest ih =>
    intro h
    rw [splitOnChar_cons]
    by_cases hc : (c == sep) = true
    · rw [if_pos hc]
      cases hsp : splitOnChar sep rest with
      | nil => exact absurd hsp (splitOnChar_ne_nil sep rest)
      | cons a t => simp
    · rw [if_neg hc]
      have hmem : sep ∈ c :: rest := List.elem_iff.mp h
      have hrest : rest.contains sep = true := by
        rcases List.mem_cons.mp hmem with h' | h'
        · subst h'
          simp at hc
        · exact List.elem_iff.mpr h'
      have h2 := ih hrest
      cases hsp : splitOnChar sep rest with
      | nil => exact absurd hsp (splitOnChar_ne_nil sep rest)
      | cons a t =>
        rw [hsp] at h2
        simpa using h2

theorem splitOnChar_of_not_contains (sep : Char) :
    ∀ {s : Str}, s.contains sep = false → splitOnChar sep s = [s] := by
  intro s
  induction s with
  | nil => intro _; rfl
  | cons c rest ih =>
    intro h
    have hnot := contains_eq_false_iff.mp h
    have hc : (c == sep) = false := by
      rw [beq_eq_false_iff_ne]
      intro hcs
      exact hnot (by rw [hcs]; exact List.mem_cons_self _ _)
    have hrest : rest.contains sep = false :=
      contains_eq_false_iff.mpr fun hm => hnot (List.mem_cons_of_mem _ hm)
    rw [splitOnChar_cons, if_neg (by simp [hc]), ih hrest]

/-- The last element of the split agrees with the direct substring-after-the-
last-separator reading. -/
theorem getLastD_splitOnChar (sep : Char) :
    ∀ s : Str, (splitOnChar sep s).getLastD [] = lastSegSpec sep s := by
  intro s
  induction s with
  | nil => rfl
  | cons c rest ih =>
    rw [splitOnChar_cons]
    by_cases hc : (c == sep) = true
    · rw [if_pos hc]
      have hp : (fun x => !(x == sep)) c = false := by simp [hc]
      rw [List.getLastD_cons, ih]
      rw [lastSegSpec, lastSegSpec, List.reverse_cons, takeWhile_append_singleton_false hp]
    · rw [if_neg hc]
      have hp : (fun x => !(x == sep)) c = true := by simp [hc]
      cases hsp : splitOnChar sep rest with
      | nil => exact absurd hsp (splitOnChar_ne_nil sep rest)
      | cons h t =>
        simp only
        cases t with
        | nil =>
          have hrest : rest = h := by
            have hj := joinChar_splitOnChar sep rest
            rw [hsp, joinChar_singleton] at hj
            exact hj.symm
          have hnc : rest.contains sep = false := by
            cases hcon : rest.contains sep with
            | false => rfl
            | true =>
              have := two_le_splitOnChar_of_contains sep hcon
              rw [hsp] at this
              simp at this
          have hall : ∀ x ∈ rest.reverse, (fun x => !(x == sep)) x = true := by
            intro x hx
            have hmem := List.mem_reverse.mp hx
            have hne := contains_eq_false_iff.mp hnc
            simp only [Bool.not_eq_true', beq_eq_false_iff_ne]
            intro hxx
            exact hne (hxx ▸ hmem)
          rw [List.getLastD_cons, List.getLastD_nil]
          rw [lastSegSpec, List.reverse_cons, takeWhile_append_all hall [c]]
          rw [show List.takeWhile (fun x => !(x == sep)) [c] = [c] by
            simp [List.takeWhile_cons, hp]]
          rw [List.reverse_append, List.reverse_reverse]
          simp [hrest]
        | cons k t' =>
          have hcc : rest.contains sep = true := by
            cases hcon : rest.contains sep with
            | true => rfl
            | false =>
              have := splitOnChar_of_not_contains sep hcon
              rw [hsp] at this
              simp at this
          have hex : ∃ x ∈ rest.reverse, (fun x => !(x == sep)) x = false :=
            ⟨sep, List.mem_reverse.mpr (List.elem_iff.mp hcc), by simp⟩
          rw [List.getLastD_cons]
          rw [getLastD_irrel (l := k :: t') (by simp) (c :: h) h]
          rw [← List.getLastD_cons, ← hsp, ih]
          rw [lastSegSpec, lastSegSpec, List.reverse_cons,
            takeWhile_append_of_exists_false hex]

theorem take_of_append_cons {J seg : Str} {c : Char} {path : Str} (h : path = J ++ c :: seg) :
    path.take (path.length - seg.length - 1) = J := by
  subst h
  have hlen : (J ++ c :: seg).length - seg.length - 1 = J.length := by
    rw [List.length_append, List.length_cons]
    omega
  rw [hlen, List.take_left]

/-- The join of the split minus its popped last element agrees with the
direct directory-part reading. -/
theorem joinChar_dropLast_splitOnChar (path : Str) :
    joinChar '/' (splitOnChar '/' path).dropLast = dirSpec path := by
  by_cases hc : path.contains '/' = true
  · have h2 := two_le_splitOnChar_of_contains '/' hc
    have hne : splitOnChar '/' path ≠ [] := splitOnChar_ne_nil '/' path
    have hsplit := List.dropLast_append_getLast hne
    have hdne : (splitOnChar '/' path).dropLast ≠ [] := by
      intro hnil
      have hlen := congrArg List.length hnil
      rw [List.length_dropLast] at hlen
      simp only [List.length_nil] at hlen
      omega
    have hj : joinChar '/' (splitOnChar '/' path) = path := joinChar_splitOnChar '/' path
    have hpath : path = joinChar '/' (splitOnChar '/' path).dropLast ++
        '/' :: (splitOnChar '/' path).getLast hne := by
      conv_lhs => rw [← hj, ← hsplit]
      exact joinChar_append_singleton '/' _ _ hdne
    have hseg : lastSegSpec '/' path = (splitOnChar '/' path).getLast hne := by
      rw [← getLastD_splitOnChar '/' path]
      rw [List.getLastD_eq_getLast? [], List.getLast?_eq_getLast _ hne]
      rfl
    rw [dirSpec, if_pos hc, hseg, take_of_append_cons hpath]
  · have hc' : path.contains '/' = false := Bool.eq_false_iff.mpr hc
    rw [splitOnChar_of_not_contains '/' hc', dirSpec, if_neg hc]
    rfl

/-- The `ext` computed by `createRule` agrees with the direct
extension-of-the-file-name reading. -/
theorem createRule_ext_eq (file : Str) :
    (if file.contains '.' then (splitOnChar '.' file).getLastD [] else []) = extSpec file := by
  rw [extSpec]
  by_cases hc : file.contains '.' = true
  · rw [if_pos hc, if_pos hc, getLastD_splitOnChar]
  · rw [if_neg hc, if_neg hc]

/-- The pattern pipeline of `createRule`, rephrased through the direct
substring readings of directory, final segment and extension. -/
theorem createRulePattern_eq (path : Str) :
    createRulePattern path =
      if !(extSpec (lastSegSpec '/' path) == []) then
        dirSpec path ++ str "/**/*." ++ extSpec (lastSegSpec '/' path)
      else path := by
  simp only [createRulePattern]
  rw [getLastD_splitOnChar '/' path, createRule_ext_eq (lastSegSpec '/' path),
    joinChar_dropLast_splitOnChar path]

theorem createRule_pattern (t : Str) (input : ToolInput) :
    (createRule t input).pattern = input.file_path.map createRulePattern := by
  cases hfp : input.file_path <;> simp only [createRule, hfp] <;> split <;> rfl

theorem createRule_command (t : Str) (input : ToolInput) :
    (createRule t input).command =
      if t == str "Bash" && strTruthy input.command then some (input.command.getD [])
      else none := by
  cases hfp : input.file_path <;> simp only [createRule, hfp] <;> split <;> rfl

/-- C5 (amended): a file-path input whose final segment has a nonempty
extension yields the directory+extension glob pattern, and the exact path
otherwise; for the Bash tool with a nonempty command field the exact command
string is stored (an input whose command field is present but empty stores no
command, because the source tests JavaScript truthiness of the field). -/
theorem createRule_spec (t : Str) (input : ToolInput) :
    (∀ path, input.file_path = some path →
      (extSpec (lastSegSpec '/' path) ≠ [] →
        (createRule t input).pattern =
          some (dirSpec path ++ str "/**/*." ++ extSpec (lastSegSpec '/' path)))
      ∧ (extSpec (lastSegSpec '/' path) = [] →
        (createRule t input).pattern = some path))
    ∧ (∀ c, t = str "Bash" → input.command = some c → c ≠ [] →
        (createRule t input).command = some c) := by
  constructor
  · intro path hfp
    constructor
    · intro hne
      rw [createRule_pattern, hfp, Option.map_some', createRulePattern_eq,
        if_pos (by simp [hne])]
    · intro he
      rw [createRule_pattern, hfp, Option.map_some', createRulePattern_eq,
        if_neg (by simp [he])]
  · intro c ht hcmd hne
    rw [createRule_command, ht, hcmd]
    rw [if_pos (by simp [strTruthy, hne])]
    rfl

theorem createRule_spec_witness :
    (createRule (str "Edit") { file_path := some (str "src/a.ts"), command := none }).pattern
        = some (str "src/**/*.ts") ∧
      (createRule (str "Bash") { file_path := none, command := some (str "ls -la") }).command
        = some (str "ls -la") :=
  ⟨by
    have h := ((createRule_spec (str "Edit")
      { file_path := some (str "src/a.ts"), command := none }).1 (str "src/a.ts") rfl).1
      (by decide)
    rw [h]
    decide,
   (createRule_spec (str "Bash") { file_path := none, command := some (str "ls -la") }).2
     (str "ls -la") rfl rfl (by decide)⟩

/-- C5 counterexample: a Bash invocation whose `command` field is present
but empty stores no command in the synthesized rule (JavaScript truthiness),
contradicting the claim that a rule for the Bash tool with a command field
stores the exact command string. -/
theorem createRule_empty_command_cex :
    (createRule (str "Bash") { file_path := none, command := some [] }).command = none ∧
      (createRule (str "Bash") { file_path := none, command := some [] }).command
        ≠ some [] := by
  constructor
  · rfl
  · decide

/-! ### Claim C6: idempotence of remember -/

theorem lookup_append_of_none {α β : Type} [BEq α] (l₁ l₂ : List (α × β)) (a : α)
    (h : l₁.lookup a = none) : (l₁ ++ l₂).lookup a = l₂.lookup a := by
  induction l₁ with
  | nil => rfl
  | cons kv l ih =>
    obtain ⟨k, b⟩ := kv
    rw [List.cons_append]
    rw [List.lookup] at h ⊢
    cases hk : (a == k) with
    | true => rw [hk] at h; exact Option.noConfusion h
    | false => rw [hk] at h; exact ih h

theorem lookup_updateProject_self (m : PermissionMemory) (p : Str)
    (f : ProjectPermissions → ProjectPermissions) :
    (updateProject m p f).lookup p = (m.lookup p).map f := by
  induction m with
  | nil => rfl
  | cons kv m ih =>
    obtain ⟨k, v⟩ := kv
    simp only [updateProject, List.map_cons] at ih ⊢
    by_cases hk : (k == p) = true
    · rw [if_pos hk, List.lookup, List.lookup]
      have hpk : (p == k) = true := by
        rw [beq_iff_eq] at hk ⊢
        exact hk.symm
      rw [hpk]
      rfl
    · rw [if_neg hk, List.lookup, List.lookup]
      have hpk : (p == k) = false := by
        rw [beq_eq_false_iff_ne]
        intro he
        exact hk (by rw [beq_iff_eq]; exact he.symm)
      rw [hpk]
      exact ih

theorem lookup_ensureProject (m : PermissionMemory) (p : Str) :
    (ensureProject m p).lookup p =
      some ((m.lookup p).getD { allowed := [], denied := [] }) := by
  rw [ensureProject]
  cases hl : m.lookup p with
  | some v =>
    rw [if_pos (show (some v).isSome = true from rfl), hl]
    rfl
  | none =>
    rw [if_neg (by simp)]
    rw [lookup_append_of_none m _ p hl]
    rw [List.lookup, beq_self_eq_true]
    rfl

theorem updateProject_updateProject (m : PermissionMemory) (p : Str)
    (f g : ProjectPermissions → ProjectPermissions) :
    updateProject (updateProject m p f) p g = updateProject m p (fun v => g (f v)) := by
  induction m with
  | nil => rfl
  | cons kv m ih =>
    obtain ⟨k, v⟩ := kv
    simp only [updateProject, List.map_cons] at ih ⊢
    by_cases hk : (k == p) = true
    · simp only [hk, if_true]
      rw [ih]
    · have hk1 := Bool.eq_false_iff.mpr hk
      simp only [hk1, Bool.false_eq_true, if_false]
      rw [ih]

theorem sameTuple_self (r : PermissionRule) : sameTuple r r = true := by
  simp [sameTuple]

theorem rememberBody_any_true {rule : PermissionRule} {a : Bool} {perms : ProjectPermissions}
    (h : (if a then perms.allowed else perms.denied).any (fun r => sameTuple r rule) = true) :
    rememberBody rule a perms = perms := by
  simp only [rememberBody]
  rw [if_pos h]

theorem rememberBody_any_false {rule : PermissionRule} {a : Bool} {perms : ProjectPermissions}
    (h : (if a then perms.allowed else perms.denied).any (fun r => sameTuple r rule) = false) :
    rememberBody rule a perms =
      if a then { perms with allowed := perms.allowed ++ [rule] }
      else { perms with denied := perms.denied ++ [rule] } := by
  simp only [rememberBody]
  rw [if_neg (by simp [h])]

theorem rememberBody_idem (rule : PermissionRule) (a : Bool) (perms : ProjectPermissions) :
    rememberBody rule a (rememberBody rule a perms) = rememberBody rule a perms := by
  by_cases h : (if a then perms.allowed else perms.denied).any (fun r => sameTuple r rule) = true
  · rw [rememberBody_any_true h, rememberBody_any_true h]
  · have h' := Bool.eq_false_iff.mpr h
    rw [rememberBody_any_false h']
    apply rememberBody_any_true
    cases a with
    | true => simp [sameTuple_self]
    | false => simp [sameTuple_self]

theorem ensureProject_remember (m : PermissionMemory) (p t : Str) (input : ToolInput)
    (a : Bool) : ensureProject (remember m p t input a) p = remember m p t input a := by
  have hsome : ((remember m p t input a).lookup p).isSome = true := by
    rw [remember, lookup_updateProject_self, lookup_ensureProject]
    rfl
  rw [ensureProject, if_pos hsome]

/-- The rule list of one project (the `allowed` list when `allowed` is true,
the `denied` list otherwise; empty when the project is not stored). -/
def ruleListOf (m : PermissionMemory) (p : Str) (allowed : Bool) : List PermissionRule :=
  match m.lookup p with
  | none => []
  | some perms => if allowed then perms.allowed else perms.denied

/-- C6: `remember` is idempotent — repeating a call with identical arguments
leaves the memory unchanged, and starting from a memory whose corresponding
list holds no rule with the new rule's tool + pattern + command tuple, two
identical calls leave exactly one rule with that tuple in the list. -/
theorem remember_idem (m : PermissionMemory) (p t : Str) (input : ToolInput) (a : Bool) :
    remember (remember m p t input a) p t input a = remember m p t input a
    ∧ ((ruleListOf m p a).countP (fun r => sameTuple r (createRule t input)) = 0 →
        (ruleListOf (remember (remember m p t input a) p t input a) p a).countP
          (fun r => sameTuple r (createRule t input)) = 1) := by
  have hidem : remember (remember m p t input a) p t input a = remember m p t input a := by
    calc remember (remember m p t input a) p t input a
        = updateProject (ensureProject (remember m p t input a) p) p
            (rememberBody (createRule t input) a) := rfl
      _ = updateProject (remember m p t input a) p
            (rememberBody (createRule t input) a) := by rw [ensureProject_remember]
      _ = updateProject (updateProject (ensureProject m p) p
            (rememberBody (createRule t input) a)) p
            (rememberBody (createRule t input) a) := rfl
      _ = updateProject (ensureProject m p) p
            (fun v => rememberBody (createRule t input) a
              (rememberBody (createRule t input) a v)) :=
          updateProject_updateProject _ _ _ _
      _ = updateProject (ensureProject m p) p (rememberBody (createRule t input) a) := by
          exact congrArg _ (funext fun v => rememberBody_idem _ _ v)
      _ = remember m p t input a := rfl
  refine ⟨hidem, ?_⟩
  intro h0
  rw [hidem]
  have hlook : (remember m p t input a).lookup p =
      some (rememberBody (createRule t input) a
        ((m.lookup p).getD { allowed := [], denied := [] })) := by
    rw [remember, lookup_updateProject_self, lookup_ensureProject]
    rfl
  rw [ruleListOf, hlook]
  set rule := createRule t input with hrule
  set perms0 := (m.lookup p).getD { allowed := [], denied := [] } with hperms0
  have hlist0 : (if a then perms0.allowed else perms0.denied) =
      ruleListOf m p a := by
    rw [ruleListOf]
    cases hl : m.lookup p with
    | none =>
      rw [hperms0, hl]
      cases a <;> rfl
    | some perms =>
      rw [hperms0, hl]
      rfl
  have hany : (if a then perms0.allowed else perms0.denied).any
      (fun r => sameTuple r rule) = false := by
    rw [hlist0, List.any_eq_false]
    intro r hr
    have := List.countP_eq_zero.mp h0 r hr
    simpa using this
  rw [rememberBody_any_false hany]
  cases a with
  | true =>
    simp only [if_true]
    rw [List.countP_append]
    have h00 : (perms0.allowed).countP (fun r => sameTuple r rule) = 0 := by
      have := hlist0
      simp only [if_true] at this
      rw [this, h0]
    rw [h00]
    simp [sameTuple_self]
  | false =>
    simp only [Bool.false_eq_true, if_false]
    rw [List.countP_append]
    have h00 : (perms0.denied).countP (fun r => sameTuple r rule) = 0 := by
      have := hlist0
      simp only [Bool.false_eq_true, if_false] at this
      rw [this, h0]
    rw [h00]
    simp [sameTuple_self]

theorem remember_idem_witness :
    (ruleListOf (remember (remember [] (str "proj") (str "Edit")
        { file_path := some (str "src/a.ts"), command := none } true)
        (str "proj") (str "Edit")
        { file_path := some (str "src/a.ts"), command := none } true)
      (str "proj") true).countP
      (fun r => sameTuple r (createRule (str "Edit")
        { file_path := some (str "src/a.ts"), command := none })) = 1 :=
  (remember_idem [] (str "proj") (str "Edit")
    { file_path := some (str "src/a.ts"), command := none } true).2 (by decide)

/-! ### Command parser (`parser.ts`, `parseClaudeCodeCommand`)

The seven recognized forms are fixed regular expressions; each is embedded
as a dedicated matcher reproducing the regex's backtracking behaviour on
that pattern.  `/s` makes `.` match newlines, `/i` lower-cases the literal
parts, `\s`/`\S` use the JavaScript whitespace class (approximated by its
common members). -/

/-- JavaScript `\s` (the characters relevant to chat text). -/
def isJsWs (c : Char) : Bool :=
  c == ' ' || c == '\t' || c == '\n' || c == '\r' ||
  c == '\x0b' || c == '\x0c' || c == '\xA0' || c == '\uFEFF'

/-- JavaScript `String.prototype.trim`. -/
def jsTrim (s : Str) : Str :=
  ((s.dropWhile isJsWs).reverse.dropWhile isJsWs).reverse

/-- JavaScript `String.prototype.toLowerCase` (ASCII). -/
def lowerStr (s : Str) : Str := s.map Char.toLower

/-- Case-insensitive prefix test against a lower-case literal. -/
def ciStartsWith (lit : Str) (t : Str) : Bool := lit.isPrefixOf (lowerStr t)

/-- Match `\s+(.+)$` (dotall) and return the capture: the greedy whitespace
run backtracks just enough to leave the one-or-more-character capture. -/
def wsPlusRest (rest : Str) : Option Str :=
  let k := (rest.takeWhile isJsWs).length
  if k == 0 then none
  else if k < rest.length then some (rest.drop k)
  else if 2 ≤ k then some (rest.drop (k - 1))
  else none

/-- Match `^cc\s+(.+)$` with `/is` and return the capture. -/
def matchCC (t : Str) : Option Str :=
  match t with
  | c1 :: c2 :: rest =>
    if c1.toLower == 'c' && c2.toLower == 'c' then wsPlusRest rest else none
  | _ => none

/-- Match `^<lit>\s+(\S+)$` with `/i` and return the capture. -/
def matchSlashArg (lit : Str) (t : Str) : Option Str :=
  if ciStartsWith lit t then
    let rest := t.drop lit.length
    let k := (rest.takeWhile isJsWs).length
    if k == 0 then none
    else
      let tok := rest.drop k
      if !tok.isEmpty && tok.all (fun c => !isJsWs c) then some tok else none
  else none

/-- Match `(\S+)\s+(.+)$` (dotall) at the start of `afterWs` and return the
token and the trailing capture. -/
def tokenThenRest (afterWs : Str) : Option (Str × Str) :=
  let tok := afterWs.takeWhile (fun c => !isJsWs c)
  if tok.isEmpty then none
  else
    match wsPlusRest (afterWs.drop tok.length) with
    | some cap => some (tok, cap)
    | none => none

/-- Match `^\/code\s+(\S+)\s+(.+)$` with `/is`. -/
def matchCode (t : Str) : Option (Str × Str) :=
  if ciStartsWith (str "/code") t then
    let rest := t.drop 5
    let k := (rest.takeWhile isJsWs).length
    if k == 0 then none else tokenThenRest (rest.drop k)
  else none

/-- Match `^@(\S+)\s+(.+)$` with `/is`. -/
def matchAt (t : Str) : Option (Str × Str) :=
  match t with
  | c :: rest => if c == '@' then tokenThenRest rest else none
  | [] => none

/-- Match `\s*(.+)$` (dotall): greedy whitespace backtracking to leave a
nonempty capture. -/
def wsStarRest (tail : Str) : Option Str :=
  if tail.isEmpty then none
  else
    let k := (tail.takeWhile isJsWs).length
    if k < tail.length then some (tail.drop k)
    else some (tail.drop (k - 1))

/-- Backtracking search for the split of the `in <project>[,:]` form: the
greedy `\S+` tries the largest prefix of the token first, requires a comma
or colon right after it, and `\s*(.+)$` must succeed on the remainder. -/
def inSplit (T after : Str) (i : Nat) : Option (Str × Str) :=
  if i = 0 then none
  else
    let c := T.getD i ' '
    if c == ',' || c == ':' then
      match wsStarRest (T.drop (i + 1) ++ after) with
      | some cap => some (T.take i, cap)
      | none => inSplit T after (i - 1)
    else inSplit T after (i - 1)
termination_by i

/-- Match `^in\s+(\S+)[,:]\s*(.+)$` with `/is`. -/
def matchIn (t : Str) : Option (Str × Str) :=
  match t with
  | c1 :: c2 :: rest =>
    if c1.toLower == 'i' && c2.toLower == 'n' then
      let k := (rest.takeWhile isJsWs).length
      if k == 0 then none
      else
        let afterWs := rest.drop k
        let T := afterWs.takeWhile (fun c => !isJsWs c)
        inSplit T (afterWs.drop T.length) (T.length - 1)
    else none
  | _ => none

/-- A parsed command (`ParsedCommand` in `parser.ts`; the source's `null` is
`none`). -/
inductive ParsedCommand
  | claudeCode (projectName prompt : Str)
  | listProjects
  | clearSession (projectName : Str)
  | clearPermissions (projectName : Str)
deriving DecidableEq, Repr

/-- `projectExists` (`client.ts` lines 196-198): the lower-cased name is a
key of the projects record. -/
def projectExists (cfg : List (Str × Str)) (name : Str) : Bool :=
  (cfg.lookup (lowerStr name)).isSome

/-- `parseClaudeCodeCommand` (`parser.ts` lines 43-103): the seven forms are
tried in source order, a form whose registry validation fails falls through
to the later forms, and unmatched input yields `none`.  `cfg` is the
insertion-ordered projects record consulted through the project manager. -/
def parseClaudeCodeCommand (cfg : List (Str × Str)) (text : Str) : Option ParsedCommand :=
  let trimmed := jsTrim text
  let bCC : Option ParsedCommand :=
    match matchCC trimmed with
    | some cap =>
      if 0 < cfg.length then some (.claudeCode (cfg.headD ([], [])).1 (jsTrim cap))
      else none
    | none => none
  let bProjects : Option ParsedCommand :=
    if lowerStr trimmed == str "/projects" then some .listProjects else none
  let bClear : Option ParsedCommand :=
    match matchSlashArg (str "/code-clear") trimmed with
    | some tok => some (.clearSession (lowerStr tok))
    | none => none
  let bPerms : Option ParsedCommand :=
    match matchSlashArg (str "/code-permissions") trimmed with
    | some tok => some (.clearPermissions (lowerStr tok))
    | none => none
  let bCode : Option ParsedCommand :=
    match matchCode trimmed with
    | some tr =>
      if projectExists cfg (lowerStr tr.1) then
        some (.claudeCode (lowerStr tr.1) (jsTrim tr.2))
      else none
    | none => none
  let bAt : Option ParsedCommand :=
    match matchAt trimmed with
    | some tr =>
      if projectExists cfg (lowerStr tr.1) then
        some (.claudeCode (lowerStr tr.1) (jsTrim tr.2))
      else none
    | none => none
  let bIn : Option ParsedCommand :=
    match matchIn trimmed with
    | some tr =>
      if projectExists cfg (lowerStr tr.1) then
        some (.claudeCode (lowerStr tr.1) (jsTrim tr.2))
      else none
    | none => none
  bCC <|> bProjects <|> bClear <|> bPerms <|> bCode <|> bAt <|> bIn

/-- One of the seven recognized command forms matches the trimmed text
(before any registry validation). -/
def recognizedForm (text : Str) : Bool :=
  let trimmed := jsTrim text
  (matchCC trimmed).isSome || lowerStr trimmed == str "/projects" ||
  (matchSlashArg (str "/code-clear") trimmed).isSome ||
  (matchSlashArg (str "/code-permissions") trimmed).isSome ||
  (matchCode trimmed).isSome || (matchAt trimmed).isSome || (matchIn trimmed).isSome

/-- C8: `parseClaudeCodeCommand` is a total function (every input yields a
value, never an exception — the embedding is a total Lean function), and on
every input text matched by none of the seven recognized command forms the
result is `none`, for every registry state. -/
theorem parse_unrecognized_none (cfg : List (Str × Str)) (text : Str)
    (h : recognizedForm text = false) :
    parseClaudeCodeCommand cfg text = none := by
  simp only [recognizedForm, Bool.or_eq_false_iff] at h
  obtain ⟨⟨⟨⟨⟨⟨h1, h2⟩, h3⟩, h4⟩, h5⟩, h6⟩, h7⟩ := h
  have e1 : matchCC (jsTrim text) = none := by
    cases hm : matchCC (jsTrim text) with
    | none => rfl
    | some v => rw [hm] at h1; cases h1
  have e3 : matchSlashArg (str "/code-clear") (jsTrim text) = none := by
    cases hm : matchSlashArg (str "/code-clear") (jsTrim text) with
    | none => rfl
    | some v => rw [hm] at h3; cases h3
  have e4 : matchSlashArg (str "/code-permissions") (jsTrim text) = none := by
    cases hm : matchSlashArg (str "/code-permissions") (jsTrim text) with
    | none => rfl
    | some v => rw [hm] at h4; cases h4
  have e5 : matchCode (jsTrim text) = none := by
    cases hm : matchCode (jsTrim text) with
    | none => rfl
    | some v => rw [hm] at h5; cases h5
  have e6 : matchAt (jsTrim text) = none := by
    cases hm : matchAt (jsTrim text) with
    | none => rfl
    | some v => rw [hm] at h6; cases h6
  have e7 : matchIn (jsTrim text) = none := by
    cases hm : matchIn (jsTrim text) with
    | none => rfl
    | some v => rw [hm] at h7; cases h7
  simp only [parseClaudeCodeCommand, e1, e3, e4, e5, e6, e7, h2, Bool.false_eq_true,
    if_false]
  rfl

theorem parse_unrecognized_none_witness :
    parseClaudeCodeCommand [(str "work", str "/srv/work")] (str "just chatting") = none :=
  parse_unrecognized_none [(str "work", str "/srv/work")] (str "just chatting") (by decide)

/-! ### Executor pending-permission protocol (`executor.ts`)

The pending-permissions table holds one resolver per outstanding request id;
the resolver's continuation (the tail of `handlePermission`, which writes the
permission store when `remember` was requested) is modelled by carrying its
captured data in the table entry.  `onPermissionResponse` embeds the
`claude-code:permission-response` handler (lines 33-46), `onTimeout` the
5-minute watchdog callback (lines 184-190); `resolutions` logs every resolver
invocation in order. -/

/-- `setTimeout(..., 5 * 60 * 1000)` — the watchdog delay in milliseconds. -/
def PERMISSION_TIMEOUT_MS : Nat := 5 * 60 * 1000

/-- One entry of the pending-permissions table together with the data the
suspended `handlePermission` continuation captured. -/
structure PendingEntry where
  requestId : String
  projectName : Str
  toolName : Str
  input : ToolInput
deriving DecidableEq, Repr

/-- The executor state the two handlers touch: the pending table, the log of
resolver invocations `(requestId, approved, remember)`, and the permission
store. -/
structure ExecState where
  pending : List PendingEntry
  resolutions : List (String × Bool × Bool)
  store : PermissionMemory
deriving DecidableEq, Repr

/-- Invoke the resolver of entry `e`: log the result and, as the resumed
`handlePermission` does (lines 194-197), write the store only when the
decision is to be remembered. -/
def resolveEntry (st : ExecState) (e : PendingEntry) (approved rememberChoice : Bool) :
    ExecState :=
  { st with
    resolutions := st.resolutions ++ [(e.requestId, approved, rememberChoice)],
    store :=
      if rememberChoice then remember st.store e.projectName e.toolName e.input approved
      else st.store }

/-- The `claude-code:permission-response` handler (lines 33-46): look the
request id up in the table; on a hit resolve with the carried flags and
delete the entry, otherwise do nothing. -/
def onPermissionResponse (st : ExecState) (requestId : String)
    (approved rememberChoice : Bool) : ExecState :=
  match st.pending.find? (fun e => e.requestId == requestId) with
  | some e =>
    let st' := resolveEntry st e approved rememberChoice
    { st' with pending := st'.pending.filter (fun e2 => !(e2.requestId == requestId)) }
  | none => st

/-- The watchdog callback (lines 184-190): if the id is still pending,
delete the entry and resolve with `{approved: false, remember: false}`;
otherwise do nothing. -/
def onTimeout (st : ExecState) (requestId : String) : ExecState :=
  match st.pending.find? (fun e => e.requestId == requestId) with
  | some e =>
    resolveEntry
      { st with pending := st.pending.filter (fun e2 => !(e2.requestId == requestId)) }
      e false false
  | none => st

theorem find?_filter_ne (l : List PendingEntry) (rid : String) :
    (l.filter (fun x => !(x.requestId == rid))).find? (fun x => x.requestId == rid) = none := by
  rw [List.find?_eq_none]
  intro x hx
  have hmem := List.mem_filter.mp hx
  simp only [Bool.not_eq_true'] at hmem
  simp [hmem.2]

theorem onTimeout_of_find_none {st : ExecState} {rid : String}
    (h : st.pending.find? (fun x => x.requestId == rid) = none) : onTimeout st rid = st := by
  rw [onTimeout, h]

theorem onResponse_of_find_none {st : ExecState} {rid : String} (a r : Bool)
    (h : st.pending.find? (fun x => x.requestId == rid) = none) :
    onPermissionResponse st rid a r = st := by
  rw [onPermissionResponse, h]

/-- C4: a pending permission request hit by the timeout resolves exactly once
to `{approved: false, remember: false}`, writes nothing to the permission
store, and removes its table entry; a late response after the timeout — and a
timeout firing after a response — leaves the state unchanged (no second
resolution). -/
theorem timeout_spec (st : ExecState) (rid : String) (e : PendingEntry)
    (hfind : st.pending.find? (fun x => x.requestId == rid) = some e) :
    (onTimeout st rid).resolutions = st.resolutions ++ [(rid, false, false)]
    ∧ (onTimeout st rid).store = st.store
    ∧ (onTimeout st rid).pending = st.pending.filter (fun x => !(x.requestId == rid))
    ∧ (onTimeout st rid).pending.find? (fun x => x.requestId == rid) = none
    ∧ (∀ a r, onPermissionResponse (onTimeout st rid) rid a r = onTimeout st rid)
    ∧ (∀ a r, onTimeout (onPermissionResponse st rid a r) rid =
        onPermissionResponse st rid a r) := by
  have hrid : e.requestId = rid := by
    have := List.find?_some hfind
    exact eq_of_beq this
  have ht : onTimeout st rid =
      { pending := st.pending.filter (fun e2 => !(e2.requestId == rid)),
        resolutions := st.resolutions ++ [(e.requestId, false, false)],
        store := st.store } := by
    rw [onTimeout, hfind]
    rfl
  refine ⟨?_, ?_, ?_, ?_, ?_, ?_⟩
  · rw [ht, hrid]
  · rw [ht]
  · rw [ht]
  · rw [ht]
    exact find?_filter_ne _ _
  · intro a r
    refine onResponse_of_find_none a r ?_
    rw [ht]
    exact find?_filter_ne _ _
  · intro a r
    have hr : onPermissionResponse st rid a r =
        { pending := (resolveEntry st e a r).pending.filter
            (fun e2 => !(e2.requestId == rid)),
          resolutions := (resolveEntry st e a r).resolutions,
          store := (resolveEntry st e a r).store } := by
      rw [onPermissionResponse, hfind]
    rw [hr]
    exact onTimeout_of_find_none (find?_filter_ne _ _)

/-- Concrete pending entry used to witness the pending-permission claims. -/
def exEntry : PendingEntry :=
  { requestId := "p1", projectName := str "proj", toolName := str "Edit",
    input := { file_path := some (str "a.ts"), command := none } }

/-- Concrete one-entry state used to witness the pending-permission claims. -/
def exState : ExecState :=
  { pending := [exEntry], resolutions := [], store := [] }

theorem timeout_spec_witness :
    (onTimeout exState "p1").resolutions = exState.resolutions ++ [("p1", false, false)]
    ∧ (onTimeout exState "p1").store = exState.store :=
  ⟨(timeout_spec exState "p1" exEntry (by rfl)).1,
   (timeout_spec exState "p1" exEntry (by rfl)).2.1⟩

/-- C10: a permission-response event whose request id has no entry in the
pending-permissions table leaves the state untouched — no resolver is
invoked, and the pending table and the permission store are unchanged. -/
theorem unknown_response_no_effect (st : ExecState) (rid : String) (a r : Bool)
    (h : st.pending.find? (fun e => e.requestId == rid) = none) :
    onPermissionResponse st rid a r = st := by
  rw [onPermissionResponse, h]

theorem unknown_response_no_effect_witness :
    onPermissionResponse exState "unknown" true true = exState :=
  unknown_response_no_effect exState "unknown" true true (by rfl)

end Demon
